import Mathlib

/-!
Verification of the searchfox client's result-collection and bounded
class-hierarchy traversal layer, as implemented in
`python/examples/code_analyzer.py` and `python/searchfox/__init__.py`.

The embedding mirrors the Python source:
* search results are `(path, line_number, line_text)` tuples (`MatchRec`);
* the dedup loop of `MozillaCodeAnalyzer.find_method_calls` (lines 87-96)
  becomes `removeDuplicates`;
* `MozillaCodeAnalyzer.get_class_hierarchy` (lines 98-116) becomes
  `get_class_hierarchy`, generic over the one-hop expansion that in the
  source is `find_implementations`;
* `MozillaCodeAnalyzer.analyze_api_usage` (lines 118-155) becomes
  `analyze_api_usage` (the pattern-classification part);
* `get_definition` lives in the compiled Rust extension module
  `searchfox.searchfox`, which is not part of the Python sources, so it is
  modelled from the spec (see its doc comment).
-/

namespace Searchfox

/-- A search result as returned by `SearchfoxClient.search`:
`(path, line_number, line_content)`. -/
abbrev MatchRec := String × Nat × String

/-- The identity key used by the dedup loop of `find_method_calls`:
`key = (result[0], result[1])`, i.e. `(path, line_num)`. -/
def key (r : MatchRec) : String × Nat := (r.1, r.2.1)

/-- The dedup loop of `find_method_calls` (code_analyzer.py lines 88-94):
walk the list keeping a `seen` set of keys; a record whose key was already
seen is skipped, otherwise it is kept and its key added to `seen`.  The
Python loop appends kept records to `unique_results` in encounter order;
here the kept records are produced in the same order by recursion. -/
def dedupGo (seen : List (String × Nat)) : List MatchRec → List MatchRec
  | [] => []
  | r :: rest =>
    if key r ∈ seen then dedupGo seen rest
    else r :: dedupGo (key r :: seen) rest

/-- `removeDuplicates` is the dedup loop started with an empty `seen` set,
exactly as in `find_method_calls` (`seen = set()`; `unique_results = []`). -/
def removeDuplicates (l : List MatchRec) : List MatchRec := dedupGo [] l

/-- The `seen` set (kept as a list of keys) after the dedup loop has
processed `l` starting from `seen`. -/
def seenKeys (seen : List (String × Nat)) : List MatchRec → List (String × Nat)
  | [] => seen
  | r :: rest =>
    if key r ∈ seen then seenKeys seen rest
    else seenKeys (key r :: seen) rest

/-- The spec's Deduplicating Collector `merge`: accumulate `incoming` after
`existing` and run the `(path, line)`-keyed dedup loop of
`find_method_calls` over the combined sequence. -/
def merge (existing incoming : List MatchRec) : List MatchRec :=
  removeDuplicates (existing ++ incoming)

/-- The hierarchy tree built by `get_class_hierarchy`: a dict
`{'class': ..., 'derived': [...]}`. -/
inductive Hierarchy where
  | node (cls : String) (derived : List Hierarchy)
deriving Repr

/-- The `'class'` field of a hierarchy dict. -/
def Hierarchy.cls : Hierarchy → String
  | .node c _ => c

/-- The `'derived'` field of a hierarchy dict. -/
def Hierarchy.derived : Hierarchy → List Hierarchy
  | .node _ ds => ds

/-- `MozillaCodeAnalyzer.get_class_hierarchy` (code_analyzer.py lines
98-116), generic over the one-hop expansion `expand` that the source
realizes as `find_implementations(base_class, limit=30)` (returning the
list of class names parsed from the search results).  The source always
performs the expansion, then: if `depth > 0` it recurses on each derived
class with `depth - 1`; otherwise (`depth == 0`) it returns each derived
class as a childless leaf `{'class': c, 'derived': []}`. -/
def get_class_hierarchy (expand : String → List String) : String → Nat → Hierarchy
  | base_class, 0 =>
    .node base_class ((expand base_class).map (fun c => .node c []))
  | base_class, depth + 1 =>
    .node base_class
      ((expand base_class).map (fun c => get_class_hierarchy expand c depth))

/-- Sequence a list of fallible sub-hierarchy results left to right,
returning the first error if any: the behaviour of the Python list
comprehension over `implementations` when an expansion raises. -/
def exceptSeq : List (Except Unit Hierarchy) → Except Unit (List Hierarchy)
  | [] => .ok []
  | x :: rest => do
    let h ← x
    let t ← exceptSeq rest
    pure (h :: t)

/-- `get_class_hierarchy` with a fallible expansion: in the source,
`find_implementations` calls `self.client.search(...)` with no
`try`/`except`, so an exception raised while expanding any node propagates
out of `get_class_hierarchy`; `Except.error` models the raised exception.
A result is produced only if every reached expansion succeeds. -/
def get_class_hierarchyE (expand : String → Except Unit (List String)) :
    String → Nat → Except Unit Hierarchy
  | base_class, 0 => do
    let impls ← expand base_class
    pure (.node base_class (impls.map (fun c => .node c [])))
  | base_class, depth + 1 => do
    let impls ← expand base_class
    let ds ← exceptSeq
      (impls.map (fun c => get_class_hierarchyE expand c depth))
    pure (.node base_class ds)

mutual

/-- Height of a hierarchy tree, counting nodes along the longest
root-to-leaf path (a childless node has height 1). -/
def Hierarchy.height : Hierarchy → Nat
  | .node _ ds => 1 + heightList ds

/-- Maximum height over a list of trees (0 for the empty list). -/
def heightList : List Hierarchy → Nat
  | [] => 0
  | h :: t => max (Hierarchy.height h) (heightList t)

end

mutual

/-- The nodes found at `'derived'`-nesting level `n` below a tree's root
(level 0 is the root itself). -/
def Hierarchy.atLevel : Nat → Hierarchy → List Hierarchy
  | 0, h => [h]
  | n + 1, .node _ ds => atLevelList n ds

/-- `Hierarchy.atLevel` mapped over a list of trees, concatenated. -/
def atLevelList : Nat → List Hierarchy → List Hierarchy
  | _, [] => []
  | n, h :: t => Hierarchy.atLevel n h ++ atLevelList n t

end

/-- The canonical parameter set of a `client.search` call as issued by
`find_method_calls`: the fields it sets (`query` is never set there). -/
structure Query where
  symbol : Option String
  id : Option String
  cpp : Bool
  limit : Nat
deriving DecidableEq, Repr

/-- The first query of `find_method_calls`:
`search(symbol=f"{class_name}::{method_name}", cpp=True, limit=limit)`. -/
def symbolQuery (class_name method_name : String) (limit : Nat) : Query :=
  ⟨some (class_name ++ "::" ++ method_name), none, true, limit⟩

/-- The fallback query of `find_method_calls`:
`search(id=method_name, cpp=True, limit=limit)`. -/
def idQuery (method_name : String) (limit : Nat) : Query :=
  ⟨none, some method_name, true, limit⟩

/-- `MozillaCodeAnalyzer.find_method_calls` (code_analyzer.py lines 66-96),
with `search` the client's search capability, instrumented to also return
the list of queries issued, in order.  The source: search by the exact
symbol `Class::method`; if (and only if) that returned no results, search
again by the bare identifier and take those results instead; then run the
dedup loop over the chosen result list. -/
def find_method_calls_instr (search : Query → List MatchRec)
    (class_name method_name : String) (limit : Nat) :
    List MatchRec × List Query :=
  let results := search (symbolQuery class_name method_name limit)
  if results = [] then
    (removeDuplicates (search (idQuery method_name limit)),
     [symbolQuery class_name method_name limit, idQuery method_name limit])
  else
    (removeDuplicates results, [symbolQuery class_name method_name limit])

/-- The list returned by `find_method_calls`. -/
def find_method_calls (search : Query → List MatchRec)
    (class_name method_name : String) (limit : Nat) : List MatchRec :=
  (find_method_calls_instr search class_name method_name limit).1

/-- `pat in line` for Python strings (infix containment of the pattern's
character sequence; all patterns used by `analyze_api_usage` are
non-empty). -/
def strContains (line pat : String) : Bool :=
  decide (pat.data <:+: line.data)

/-- The four usage-pattern buckets of `analyze_api_usage`. -/
inductive UsagePattern where
  | constructor
  | static_method
  | method_call
  | other
deriving DecidableEq, Repr

/-- The pattern-classification branch of `analyze_api_usage`
(code_analyzer.py lines 142-149): an `if`/`elif`/`elif`/`else` chain, so
each line falls into exactly one bucket. -/
def classify_usage (api_function line : String) : UsagePattern :=
  if strContains line ("new " ++ api_function) then .constructor
  else if strContains line (api_function ++ "::") then .static_method
  else if strContains line ("->" ++ api_function)
       || strContains line ("." ++ api_function) then .method_call
  else .other

/-- The fields of `usage_stats` relevant to the pattern counts:
`total_calls` and the four `patterns` counters (a Python `defaultdict`
returns 0 for a never-incremented bucket, which the four explicit counters
model directly). -/
structure UsageStats where
  total_calls : Nat
  patterns_constructor : Nat
  patterns_static_method : Nat
  patterns_method_call : Nat
  patterns_other : Nat
deriving DecidableEq, Repr

/-- `usage_stats['patterns'][p] += 1` for the bucket chosen by the
classification chain. -/
def bumpPattern (s : UsageStats) : UsagePattern → UsageStats
  | .constructor => ⟨s.total_calls, s.patterns_constructor + 1,
      s.patterns_static_method, s.patterns_method_call, s.patterns_other⟩
  | .static_method => ⟨s.total_calls, s.patterns_constructor,
      s.patterns_static_method + 1, s.patterns_method_call, s.patterns_other⟩
  | .method_call => ⟨s.total_calls, s.patterns_constructor,
      s.patterns_static_method, s.patterns_method_call + 1, s.patterns_other⟩
  | .other => ⟨s.total_calls, s.patterns_constructor,
      s.patterns_static_method, s.patterns_method_call, s.patterns_other + 1⟩

/-- `MozillaCodeAnalyzer.analyze_api_usage` (code_analyzer.py lines
118-155), restricted to the fields the pattern-count invariant is about:
`total_calls = len(results)` is set before the loop, then each result's
line is classified and its bucket incremented. -/
def analyze_api_usage (api_function : String) (results : List MatchRec) :
    UsageStats :=
  results.foldl (fun s r => bumpPattern s (classify_usage api_function r.2.2))
    ⟨results.length, 0, 0, 0, 0⟩

/-- Modelled from the spec: `SearchfoxClient.get_definition` is implemented
in the compiled extension module `searchfox.searchfox` (Rust, built with
maturin), which is not among the Python sources; only its wrapper
(`searchfox/__init__.py` lines 86-100) and callers are.  Per the spec
(§4.5, §8), it performs a single indexed lookup through the transport and
"returns an explicit 'not found' sentinel (never a confusing empty string)
distinguishing 'no definition' from 'empty definition body'"; against a
transport returning an empty payload it returns the sentinel, not an empty
string and not an error.  The transport is `send(params) -> raw payload`;
the sentinel is `none`. -/
def get_definition (transport : String → Option String → String)
    (symbol : String) (path_filter : Option String) : Option String :=
  let payload := transport symbol path_filter
  if payload = "" then none else some payload

/-- A concrete one-hop expansion whose root has a non-empty expansion:
`expand("R") = ["X"]`. -/
def exC1 : String → List String
  | "R" => ["X"]
  | _ => []

/-- The spec's cyclic relation: `expand("A") = ["B"]`, `expand("B") = ["A"]`. -/
def cyc : String → List String
  | "A" => ["B"]
  | "B" => ["A"]
  | _ => []

/-- A fallible expansion where exactly one of the root's three children
fails to expand: `expand("root") = ok ["A", "B", "C"]`, expanding `"B"`
raises, expanding `"A"` or `"C"` succeeds with no further children. -/
def exC3 : String → Except Unit (List String)
  | "root" => .ok ["A", "B", "C"]
  | "B" => .error ()
  | _ => .ok []

end Searchfox

namespace Searchfox

lemma length_pos_of_ne_empty (s : String) (h : s ≠ "") : 0 < s.length := by
  cases s with
  | mk data =>
    cases data with
    | nil => exact absurd rfl h
    | cons c cs => simp [String.length]

/-- C1 fails on the code: with `exC1 "R" = ["X"]` non-empty,
`get_class_hierarchy exC1 "R" 0` has a non-empty `'derived'` list — the
depth-0 call still performs one expansion and keeps its results as leaf
children, so the returned node is not childless. -/
theorem C1_counterexample :
    exC1 "R" = ["X"] ∧
    (get_class_hierarchy exC1 "R" 0).derived.isEmpty = false ∧
    (get_class_hierarchy exC1 "R" 0).derived = [Hierarchy.node "X" []] := by
  refine ⟨rfl, rfl, rfl⟩

/-- C1 amended: `get_class_hierarchy(base, 0)` still performs the one-hop
expansion of the root and returns each result as a childless leaf child;
it is a childless node only when `expand(base)` is empty. -/
theorem C1_depth_zero_one_level (expand : String → List String)
    (base : String) :
    get_class_hierarchy expand base 0 =
      Hierarchy.node base ((expand base).map (fun c => Hierarchy.node c [])) :=
  rfl

/-- C2 fails on the code: with the mutual cycle `cyc`, the traversal keeps
re-expanding labels already present among the ancestors.  At depth 5 the
result is a height-7 alternating chain, not the spec's three-node tree
`A → B → cycle-leaf A`; the node at nesting level 2 is again `"A"` and has
a non-empty `'derived'` list, i.e. the ancestor label was re-expanded
rather than kept as a leaf marker. -/
theorem C2_counterexample :
    cyc "A" = ["B"] ∧ cyc "B" = ["A"] ∧
    (get_class_hierarchy cyc "A" 5).height = 7 ∧
    (Hierarchy.atLevel 2 (get_class_hierarchy cyc "A" 5)).map
      (fun t => (t.cls, t.derived.isEmpty)) = [("A", false)] := by
  refine ⟨rfl, rfl, rfl, rfl⟩

/-- C2 amended: the traversal keeps no ancestor set; a label already on
the path from the root is re-expanded, and the cycle is unrolled until the
depth budget is exhausted: `get_class_hierarchy cyc "A" 5` is the
alternating seven-node chain `A → B → A → B → A → B → A`. -/
theorem C2_cycle_unrolled :
    get_class_hierarchy cyc "A" 5 =
      Hierarchy.node "A" [Hierarchy.node "B" [Hierarchy.node "A"
        [Hierarchy.node "B" [Hierarchy.node "A" [Hierarchy.node "B"
          [Hierarchy.node "A" []]]]]]] :=
  rfl

/-- C8 (modelled from the spec, `SearchfoxClient.get_definition` being in
the compiled extension module): against a transport returning an empty
payload, `get_definition` returns the "not found" sentinel `none`; and for
every transport the result is either the sentinel or a definition body of
positive length — never `some ""`, and the return type admits no error. -/
theorem C8_get_definition_sentinel (symbol : String)
    (path_filter : Option String) :
    get_definition (fun _ _ => "") symbol path_filter = none ∧
    ∀ transport : String → Option String → String,
      get_definition transport symbol path_filter = none ∨
      ∃ d, get_definition transport symbol path_filter = some d ∧
        0 < d.length := by
  constructor
  · rfl
  · intro transport
    by_cases h : transport symbol path_filter = ""
    · exact Or.inl (by simp [get_definition, h])
    · exact Or.inr ⟨transport symbol path_filter,
        by simp [get_definition, h], length_pos_of_ne_empty _ h⟩

lemma except_bind_error {β γ : Type} (f : β → Except Unit γ) :
    (Except.error () >>= f : Except Unit γ) = Except.error () := rfl

lemma except_bind_ok {β γ : Type} (b : β) (f : β → Except Unit γ) :
    (Except.ok b >>= f : Except Unit γ) = f b := rfl

lemma get_class_hierarchyE_error (expand : String → Except Unit (List String))
    (c : String) (d : Nat) (h : expand c = .error ()) :
    get_class_hierarchyE expand c d = .error () := by
  cases d <;> simp [get_class_hierarchyE, h, except_bind_error]

lemma exceptSeq_error (l : List (Except Unit Hierarchy))
    (h : Except.error () ∈ l) : exceptSeq l = .error () := by
  induction l with
  | nil => exact absurd h (List.not_mem_nil _)
  | cons a rest ih =>
    rcases List.mem_cons.mp h with h' | h'
    · simp [exceptSeq, ← h', except_bind_error]
    · cases ha : a with
      | error e =>
        cases e
        simp [exceptSeq, except_bind_error]
      | ok b =>
        simp [exceptSeq, except_bind_ok, except_bind_error, ih h']

/-- C3 fails on the code: `exC3` expands the root to three children of
which exactly one (`"B"`) fails; the siblings would expand cleanly, yet
`get_class_hierarchyE exC3 "root" 2` is an error — the whole traversal is
aborted, instead of a tree with three children one of which is marked
failed. -/
theorem C3_counterexample :
    exC3 "root" = .ok ["A", "B", "C"] ∧
    exC3 "A" = .ok [] ∧ exC3 "B" = .error () ∧ exC3 "C" = .ok [] ∧
    get_class_hierarchyE exC3 "root" 2 = .error () := by
  refine ⟨rfl, rfl, rfl, rfl, rfl⟩

/-- C3 amended: `find_implementations` wraps `client.search` in no error
handler, so if the expansion of any child reached within a positive depth
budget fails, the exception propagates and the entire traversal fails; no
partial tree with a branch-level failure marker is produced. -/
theorem C3_failure_aborts_traversal
    (expand : String → Except Unit (List String)) (base c : String)
    (d : Nat) (l : List String) (hbase : expand base = .ok l) (hc : c ∈ l)
    (hfail : expand c = .error ()) :
    get_class_hierarchyE expand base (d + 1) = .error () := by
  have herr : get_class_hierarchyE expand c d = .error () :=
    get_class_hierarchyE_error expand c d hfail
  have hmem : Except.error () ∈
      l.map (fun x => get_class_hierarchyE expand x d) := by
    exact herr ▸ List.mem_map_of_mem _ hc
  have hseq : exceptSeq (l.map (fun x => get_class_hierarchyE expand x d)) =
      .error () := exceptSeq_error _ hmem
  simp [get_class_hierarchyE, hbase, hseq, except_bind_error, except_bind_ok]

/-- Witness for `C3_failure_aborts_traversal` at the concrete input
`exC3`, root `"root"`, failing child `"B"`, depth 1. -/
theorem C3_failure_aborts_traversal_witness :
    get_class_hierarchyE exC3 "root" 1 = .error () :=
  C3_failure_aborts_traversal exC3 "root" "B" 0 ["A", "B", "C"] rfl
    (by decide) rfl

lemma heightList_map_le (l : List String) (f : String → Hierarchy) (n : Nat)
    (h : ∀ x, (f x).height ≤ n) : heightList (l.map f) ≤ n := by
  induction l with
  | nil => simp [heightList]
  | cons a rest ih => simpa [heightList] using And.intro (h a) ih

/-- C4: for every one-hop expansion (cyclic relations included), every
root and every non-negative depth, the traversal terminates with a finite
tree: `get_class_hierarchy` is total by structural recursion on the depth,
and the height of the resulting tree is bounded by `depth + 2` (the root,
`depth` recursive levels, and a final level of leaf children). -/
theorem C4_traversal_height_bounded (expand : String → List String)
    (base : String) (d : Nat) :
    (get_class_hierarchy expand base d).height ≤ d + 2 := by
  induction d generalizing base with
  | zero =>
    have hle : heightList ((expand base).map (fun c => Hierarchy.node c []))
        ≤ 1 :=
      heightList_map_le _ _ 1 (fun x => by simp [Hierarchy.height, heightList])
    simp only [get_class_hierarchy, Hierarchy.height]
    omega
  | succ n ih =>
    have hle : heightList ((expand base).map
        (fun c => get_class_hierarchy expand c n)) ≤ n + 2 :=
      heightList_map_le _ _ (n + 2) (fun x => ih x)
    simp only [get_class_hierarchy, Hierarchy.height]
    omega

lemma all_atLevelList (p : Hierarchy → Bool) (n : Nat) (l : List Hierarchy)
    (h : ∀ x ∈ l, (Hierarchy.atLevel n x).all p = true) :
    (atLevelList n l).all p = true := by
  induction l with
  | nil => rfl
  | cons a rest ih =>
    rw [atLevelList, List.all_append]
    simp [h a (List.mem_cons_self a rest),
      ih (fun x hx => h x (List.mem_cons_of_mem a hx))]

lemma atLevelList_nil (n : Nat) (l : List Hierarchy)
    (h : ∀ x ∈ l, Hierarchy.atLevel n x = []) : atLevelList n l = [] := by
  induction l with
  | nil => rfl
  | cons a rest ih =>
    rw [atLevelList, h a (List.mem_cons_self a rest),
      ih (fun x hx => h x (List.mem_cons_of_mem a hx))]
    rfl

/-- C9: for every expansion, base class and depth `d`, the tree built by
`get_class_hierarchy` has at most `d + 1` levels of `'derived'` nesting
below the root — every node at nesting level `d + 1` has an empty
`'derived'` list, and level `d + 2` holds no nodes at all (so the one-hop
expansion contributes at most `d + 1` levels along any root-to-leaf
path). -/
theorem C9_depth_nesting_bound (expand : String → List String)
    (base : String) (d : Nat) :
    (Hierarchy.atLevel (d + 1) (get_class_hierarchy expand base d)).all
      (fun t => t.derived.isEmpty) = true ∧
    Hierarchy.atLevel (d + 2) (get_class_hierarchy expand base d) = [] := by
  induction d generalizing base with
  | zero =>
    constructor
    · rw [get_class_hierarchy, Hierarchy.atLevel]
      apply all_atLevelList
      intro x hx
      rcases List.mem_map.mp hx with ⟨c, _, rfl⟩
      rfl
    · rw [get_class_hierarchy, Hierarchy.atLevel]
      apply atLevelList_nil
      intro x hx
      rcases List.mem_map.mp hx with ⟨c, _, rfl⟩
      rfl
  | succ n ih =>
    constructor
    · rw [get_class_hierarchy, Hierarchy.atLevel]
      apply all_atLevelList
      intro x hx
      rcases List.mem_map.mp hx with ⟨c, _, rfl⟩
      exact (ih c).1
    · rw [get_class_hierarchy, Hierarchy.atLevel]
      apply atLevelList_nil
      intro x hx
      rcases List.mem_map.mp hx with ⟨c, _, rfl⟩
      exact (ih c).2

/-- The total of the four pattern counters of a `usage_stats` record. -/
def patSum (s : UsageStats) : Nat :=
  s.patterns_constructor + s.patterns_static_method + s.patterns_method_call +
    s.patterns_other

lemma bumpPattern_total (s : UsageStats) (p : UsagePattern) :
    (bumpPattern s p).total_calls = s.total_calls := by
  cases p <;> rfl

lemma bumpPattern_patSum (s : UsageStats) (p : UsagePattern) :
    patSum (bumpPattern s p) = patSum s + 1 := by
  cases p <;> simp [patSum, bumpPattern] <;> omega

lemma analyze_foldl_total (api_function : String) (results : List MatchRec)
    (init : UsageStats) :
    (results.foldl
      (fun s r => bumpPattern s (classify_usage api_function r.2.2))
      init).total_calls = init.total_calls := by
  induction results generalizing init with
  | nil => rfl
  | cons r rest ih =>
    rw [List.foldl_cons, ih, bumpPattern_total]

lemma analyze_foldl_patSum (api_function : String) (results : List MatchRec)
    (init : UsageStats) :
    patSum (results.foldl
      (fun s r => bumpPattern s (classify_usage api_function r.2.2)) init) =
      patSum init + results.length := by
  induction results generalizing init with
  | nil => rfl
  | cons r rest ih =>
    rw [List.foldl_cons, ih, bumpPattern_patSum, List.length_cons]
    omega

/-- C10: `analyze_api_usage` puts every search result into exactly one of
the four pattern buckets (the classification is an `if`/`elif`/`elif`/
`else` chain), so the four `patterns` counters sum to `total_calls`, and
`total_calls` is the number of search results. -/
theorem C10_patterns_partition (api_function : String)
    (results : List MatchRec) :
    (analyze_api_usage api_function results).total_calls = results.length ∧
    (analyze_api_usage api_function results).patterns_constructor +
      (analyze_api_usage api_function results).patterns_static_method +
      (analyze_api_usage api_function results).patterns_method_call +
      (analyze_api_usage api_function results).patterns_other =
      (analyze_api_usage api_function results).total_calls := by
  constructor
  · exact analyze_foldl_total api_function results _
  · have hsum := analyze_foldl_patSum api_function results
      ⟨results.length, 0, 0, 0, 0⟩
    have htot := analyze_foldl_total api_function results
      ⟨results.length, 0, 0, 0, 0⟩
    simp only [analyze_api_usage, patSum] at hsum htot ⊢
    omega

lemma dedupGo_sublist (seen : List (String × Nat)) (l : List MatchRec) :
    List.Sublist (dedupGo seen l) l := by
  induction l generalizing seen with
  | nil => simp [dedupGo]
  | cons a rest ih =>
    rw [dedupGo]
    split
    · exact List.Sublist.cons a (ih seen)
    · exact List.Sublist.cons₂ a (ih _)

lemma countP_dedupGo_zero (seen : List (String × Nat)) (l : List MatchRec)
    (k : String × Nat) (h : k ∈ seen) :
    (dedupGo seen l).countP (fun r => decide (key r = k)) = 0 := by
  induction l generalizing seen with
  | nil => rfl
  | cons a rest ih =>
    rw [dedupGo]
    split
    next ha => exact ih seen h
    next ha =>
      rw [List.countP_cons]
      have hne : ¬ (key a = k) := fun e => ha (e ▸ h)
      simp [hne, ih (key a :: seen) (List.mem_cons_of_mem _ h)]

lemma countP_dedupGo_le_one (seen : List (String × Nat)) (l : List MatchRec)
    (k : String × Nat) :
    (dedupGo seen l).countP (fun r => decide (key r = k)) ≤ 1 := by
  induction l generalizing seen with
  | nil => simp [dedupGo]
  | cons a rest ih =>
    rw [dedupGo]
    split
    · exact ih seen
    · rw [List.countP_cons]
      by_cases hk : key a = k
      · subst hk
        have h0 := countP_dedupGo_zero (key a :: seen) rest (key a)
          (List.mem_cons_self _ _)
        simp [h0]
      · simp [hk, ih (key a :: seen)]

lemma key_dedupGo_not_seen (seen : List (String × Nat)) (l : List MatchRec)
    (r : MatchRec) (h : r ∈ dedupGo seen l) : key r ∉ seen := by
  induction l generalizing seen with
  | nil => simp [dedupGo] at h
  | cons a rest ih =>
    rw [dedupGo] at h
    split at h
    · exact ih seen h
    next ha =>
      rcases List.mem_cons.mp h with rfl | h'
      · exact ha
      · exact fun hs => ih _ h' (List.mem_cons_of_mem _ hs)

lemma find?_dedupGo (seen : List (String × Nat)) (l : List MatchRec)
    (r : MatchRec) (h : r ∈ dedupGo seen l) :
    l.find? (fun x => decide (key x = key r)) = some r := by
  induction l generalizing seen with
  | nil => simp [dedupGo] at h
  | cons a rest ih =>
    rw [dedupGo] at h
    split at h
    next ha =>
      have hne : ¬ (key a = key r) :=
        fun e => key_dedupGo_not_seen seen rest r h (e ▸ ha)
      rw [List.find?_cons_of_neg _ (by simpa using hne)]
      exact ih seen h
    next ha =>
      rcases List.mem_cons.mp h with rfl | h'
      · exact List.find?_cons_of_pos _ (by simp)
      · have hr := key_dedupGo_not_seen _ _ _ h'
        have hne : ¬ (key a = key r) :=
          fun e => hr (e ▸ List.mem_cons_self _ _)
        rw [List.find?_cons_of_neg _ (by simpa using hne)]
        exact ih _ h'

lemma dedupGo_append (s : List (String × Nat)) (l₁ l₂ : List MatchRec) :
    dedupGo s (l₁ ++ l₂) = dedupGo s l₁ ++ dedupGo (seenKeys s l₁) l₂ := by
  induction l₁ generalizing s with
  | nil => rfl
  | cons a rest ih =>
    by_cases h : key a ∈ s
    · rw [List.cons_append, dedupGo, if_pos h, dedupGo, if_pos h, seenKeys,
        if_pos h]
      exact ih s
    · rw [List.cons_append, dedupGo, if_neg h, dedupGo, if_neg h, seenKeys,
        if_neg h, List.cons_append]
      exact congrArg (a :: ·) (ih (key a :: s))

lemma mem_seenKeys (s : List (String × Nat)) (l : List MatchRec)
    (k : String × Nat) : k ∈ seenKeys s l ↔ k ∈ s ∨ k ∈ l.map key := by
  induction l generalizing s with
  | nil => simp [seenKeys]
  | cons a rest ih =>
    by_cases h : key a ∈ s
    · rw [seenKeys, if_pos h, ih]
      simp only [List.map_cons, List.mem_cons]
      constructor
      · tauto
      · rintro (hk | rfl | hk)
        · exact Or.inl hk
        · exact Or.inl h
        · exact Or.inr hk
    · rw [seenKeys, if_neg h, ih]
      simp only [List.mem_cons, List.map_cons]
      tauto

lemma dedupGo_congr (s s' : List (String × Nat)) (l : List MatchRec)
    (h : ∀ k, k ∈ s ↔ k ∈ s') : dedupGo s l = dedupGo s' l := by
  induction l generalizing s s' with
  | nil => rfl
  | cons a rest ih =>
    by_cases ha : key a ∈ s
    · rw [dedupGo, if_pos ha, dedupGo, if_pos ((h _).mp ha)]
      exact ih s s' h
    · rw [dedupGo, if_neg ha, dedupGo, if_neg (fun hx => ha ((h _).mpr hx))]
      exact congrArg (a :: ·) (ih (key a :: s) (key a :: s')
        (fun k => by simp only [List.mem_cons, h k]))

lemma dedupGo_compose (s t : List (String × Nat)) (l : List MatchRec)
    (h : ∀ k, k ∈ t → k ∈ s) : dedupGo s (dedupGo t l) = dedupGo s l := by
  induction l generalizing s t with
  | nil => rfl
  | cons a rest ih =>
    by_cases hat : key a ∈ t
    · have h1 : dedupGo t (a :: rest) = dedupGo t rest := by
        rw [dedupGo, if_pos hat]
      have h2 : dedupGo s (a :: rest) = dedupGo s rest := by
        rw [dedupGo, if_pos (h _ hat)]
      rw [h1, h2, ih s t h]
    · have h1 : dedupGo t (a :: rest) = a :: dedupGo (key a :: t) rest := by
        rw [dedupGo, if_neg hat]
      by_cases has : key a ∈ s
      · have h2 : dedupGo s (a :: dedupGo (key a :: t) rest) =
            dedupGo s (dedupGo (key a :: t) rest) := by
          rw [dedupGo, if_pos has]
        have h3 : dedupGo s (a :: rest) = dedupGo s rest := by
          rw [dedupGo, if_pos has]
        rw [h1, h2, h3, ih s (key a :: t)
          (fun k hk => (List.mem_cons.mp hk).elim (fun e => e ▸ has) (h k))]
      · have h2 : dedupGo s (a :: dedupGo (key a :: t) rest) =
            a :: dedupGo (key a :: s) (dedupGo (key a :: t) rest) := by
          rw [dedupGo, if_neg has]
        have h3 : dedupGo s (a :: rest) = a :: dedupGo (key a :: s) rest := by
          rw [dedupGo, if_neg has]
        rw [h1, h2, h3, ih (key a :: s) (key a :: t)
          (fun k hk => (List.mem_cons.mp hk).elim
            (fun e => e ▸ List.mem_cons_self _ _)
            (fun hk' => List.mem_cons_of_mem _ (h k hk')))]

lemma mem_map_key_dedupGo (s : List (String × Nat)) (l : List MatchRec)
    (k : String × Nat) :
    k ∈ (dedupGo s l).map key ↔ k ∉ s ∧ k ∈ l.map key := by
  induction l generalizing s with
  | nil => simp [dedupGo]
  | cons a rest ih =>
    by_cases ha : key a ∈ s
    · rw [dedupGo, if_pos ha, ih]
      simp only [List.map_cons, List.mem_cons]
      constructor
      · rintro ⟨hns, hm⟩
        exact ⟨hns, Or.inr hm⟩
      · rintro ⟨hns, (rfl | hm)⟩
        · exact absurd ha hns
        · exact ⟨hns, hm⟩
    · rw [dedupGo, if_neg ha, List.map_cons, List.mem_cons, ih]
      simp only [List.map_cons, List.mem_cons]
      constructor
      · rintro (rfl | ⟨hns, hm⟩)
        · exact ⟨ha, Or.inl rfl⟩
        · exact ⟨fun hs => hns (Or.inr hs), Or.inr hm⟩
      · rintro ⟨hns, (rfl | hm)⟩
        · exact Or.inl rfl
        · by_cases hk : k = key a
          · exact Or.inl hk
          · exact Or.inr ⟨fun hc => hc.elim hk hns, hm⟩

lemma dedupGo_nil_of_seen (s : List (String × Nat)) (l : List MatchRec)
    (h : ∀ r ∈ l, key r ∈ s) : dedupGo s l = [] := by
  induction l with
  | nil => rfl
  | cons a rest ih =>
    rw [dedupGo, if_pos (h a (List.mem_cons_self _ _))]
    exact ih (fun r hr => h r (List.mem_cons_of_mem _ hr))

/-- C5: the dedup loop of `find_method_calls` keeps each `(path, line)`
key at most once, keeps for each key the first record seen, and preserves
order (the output is a sublist of the input); and when merging an already
deduplicated `existing` set with an `incoming` set, `existing` keeps its
positions unchanged and the surviving `incoming` entries are appended
after it in first-encounter order. -/
theorem C5_dedup_first_seen (l : List MatchRec) :
    (∀ k, (removeDuplicates l).countP (fun r => decide (key r = k)) ≤ 1) ∧
    (∀ r ∈ removeDuplicates l,
      l.find? (fun x => decide (key x = key r)) = some r) ∧
    List.Sublist (removeDuplicates l) l ∧
    (∀ existing incoming : List MatchRec,
      removeDuplicates existing = existing →
      merge existing incoming =
        existing ++ dedupGo (seenKeys [] existing) incoming) := by
  refine ⟨fun k => countP_dedupGo_le_one [] l k,
    fun r hr => find?_dedupGo [] l r hr,
    dedupGo_sublist [] l,
    fun e i he => ?_⟩
  rw [removeDuplicates] at he
  rw [merge, removeDuplicates, dedupGo_append, he]

/-- Witness for `C5_dedup_first_seen` at a concrete input containing a
duplicate key. -/
theorem C5_dedup_first_seen_witness :
    (removeDuplicates [("a", 1, "x"), ("a", 1, "y"), ("b", 2, "z")]).countP
      (fun r => decide (key r = ("a", 1))) ≤ 1 ∧
    List.find? (fun x => decide (key x = key (("a", 1, "x") : MatchRec)))
      [("a", 1, "x"), ("a", 1, "y"), ("b", 2, "z")] = some ("a", 1, "x") ∧
    List.Sublist (removeDuplicates [("a", 1, "x"), ("a", 1, "y"),
      ("b", 2, "z")]) [("a", 1, "x"), ("a", 1, "y"), ("b", 2, "z")] ∧
    merge [("b", 2, "z")] [("b", 2, "w"), ("c", 3, "v")] =
      [("b", 2, "z")] ++
        dedupGo (seenKeys [] [("b", 2, "z")]) [("b", 2, "w"), ("c", 3, "v")] := by
  have h := C5_dedup_first_seen [("a", 1, "x"), ("a", 1, "y"), ("b", 2, "z")]
  exact ⟨h.1 ("a", 1), h.2.1 ("a", 1, "x") (by decide), h.2.2.1,
    (C5_dedup_first_seen [("b", 2, "z")]).2.2.2
      [("b", 2, "z")] [("b", 2, "w"), ("c", 3, "v")] (by decide)⟩

lemma seenKeys_dedup_iff (L : List MatchRec) (k : String × Nat) :
    k ∈ seenKeys [] (removeDuplicates L) ↔ k ∈ seenKeys [] L := by
  rw [mem_seenKeys, mem_seenKeys, removeDuplicates, mem_map_key_dedupGo]
  simp

lemma merge_dedup_left (L M : List MatchRec) :
    merge (removeDuplicates L) M = merge L M := by
  rw [merge, merge, removeDuplicates, removeDuplicates, removeDuplicates,
    dedupGo_append, dedupGo_append,
    dedupGo_compose [] [] L (fun _ hk => hk),
    dedupGo_congr (seenKeys [] (dedupGo [] L)) (seenKeys [] L) M
      (fun k => seenKeys_dedup_iff L k)]

lemma merge_dedup_right (L M : List MatchRec) :
    merge L (removeDuplicates M) = merge L M := by
  rw [merge, merge, removeDuplicates, removeDuplicates, removeDuplicates,
    dedupGo_append, dedupGo_append,
    dedupGo_compose (seenKeys [] L) [] M (fun _ hk => absurd hk
      (List.not_mem_nil _))]

/-- C6: the Deduplicating Collector's merge (the `(path, line)`-keyed
dedup loop of `find_method_calls` over the concatenated result sets) is
idempotent on result sets (lists already free of duplicate keys, i.e.
fixed points of `removeDuplicates`) and associative on all result
lists. -/
theorem C6_merge_idempotent_assoc (A B C X : List MatchRec)
    (hX : removeDuplicates X = X) :
    merge X X = X ∧ merge A (merge B C) = merge (merge A B) C := by
  constructor
  · rw [removeDuplicates] at hX
    rw [merge, removeDuplicates, dedupGo_append, hX,
      dedupGo_nil_of_seen (seenKeys [] X) X
        (fun r hr => (mem_seenKeys [] X (key r)).mpr
          (Or.inr (List.mem_map_of_mem key hr))),
      List.append_nil]
  · have h1 : merge A (merge B C) = merge A (B ++ C) :=
      merge_dedup_right A (B ++ C)
    have h2 : merge (merge A B) C = merge (A ++ B) C :=
      merge_dedup_left (A ++ B) C
    rw [h1, h2, merge, merge, List.append_assoc]

/-- Witness for `C6_merge_idempotent_assoc` at concrete result sets, with
`X` a deduplicated set and `A`, `B`, `C` sharing keys. -/
theorem C6_merge_idempotent_assoc_witness :
    merge [("a", 1, "x"), ("b", 2, "z")] [("a", 1, "x"), ("b", 2, "z")] =
      [("a", 1, "x"), ("b", 2, "z")] ∧
    merge [("a", 1, "x")]
        (merge [("a", 1, "y"), ("b", 2, "z")] [("b", 2, "w")]) =
      merge (merge [("a", 1, "x")] [("a", 1, "y"), ("b", 2, "z")])
        [("b", 2, "w")] :=
  C6_merge_idempotent_assoc [("a", 1, "x")] [("a", 1, "y"), ("b", 2, "z")]
    [("b", 2, "w")] [("a", 1, "x"), ("b", 2, "z")] (by decide)

/-- C7: in `find_method_calls`, the identifier query is issued exactly
when the preceding exact-symbol query returned no results, and the
returned list is the dedup of the concatenation of the issued queries'
results, so no `(path, line)` key occurs twice in it. -/
theorem C7_fallback_iff_empty (search : Query → List MatchRec)
    (class_name method_name : String) (limit : Nat) :
    (idQuery method_name limit ∈
        (find_method_calls_instr search class_name method_name limit).2 ↔
      search (symbolQuery class_name method_name limit) = []) ∧
    (find_method_calls_instr search class_name method_name limit).1 =
      removeDuplicates
        (((find_method_calls_instr search class_name method_name
          limit).2.map search).flatten) ∧
    (∀ k, (find_method_calls search class_name method_name limit).countP
      (fun r => decide (key r = k)) ≤ 1) := by
  by_cases h : search (symbolQuery class_name method_name limit) = []
  · refine ⟨?_, ?_, ?_⟩
    · simp [find_method_calls_instr, h]
    · simp [find_method_calls_instr, h]
    · intro k
      simp only [find_method_calls, find_method_calls_instr, h, if_pos]
      exact countP_dedupGo_le_one [] _ k
  · have hne : idQuery method_name limit ≠
        symbolQuery class_name method_name limit := by
      simp [idQuery, symbolQuery]
    refine ⟨?_, ?_, ?_⟩
    · simp [find_method_calls_instr, h, hne]
    · simp [find_method_calls_instr, h]
    · intro k
      simp only [find_method_calls, find_method_calls_instr, h, if_neg]
      exact countP_dedupGo_le_one [] _ k

end Searchfox
